import Mathlib

/-!
# Verification of the ultrasonic FSK modem core (ruvnet/ultrasonic)

Shallow embedding of `src/embed/ultrasonic_encoder.py` and
`src/decode/ultrasonic_decoder.py`.

Conventions of the embedding:
* Python `bytes` are `List ℕ` with each element `< 256` where that matters.
* Python bit strings (`'0'`/`'1'` characters) are `List Bool` (`'1'` ↦ `true`).
* Real-valued samples and configuration values are `ℚ` (exact arithmetic in
  place of IEEE doubles; float literals such as `0.2` become the exact
  rationals they denote in the source text).
* Transcendental/FP parts (`np.sin`, `π`, `scipy` dot products, the band-pass
  filter) are abstract function parameters: the combinatorial control flow
  around them is translated exactly, while their numeric values remain
  uninterpreted.
* A Python function that can `raise` at the modelled call sites returns
  `Option`/`Except`; `none`/`.error` models the raised exception.
-/

/-- Python `int(x)` on a real value: truncation toward zero
(`ultrasonic_encoder.py` line 38, `ultrasonic_decoder.py` line 38). -/
def truncQ (x : ℚ) : ℤ := if 0 ≤ x then ⌊x⌋ else ⌈x⌉

/-- Encoder attribute `self.samples_per_bit = int(sample_rate * bit_duration)` in
`UltrasonicEncoder.__init__` (ultrasonic_encoder.py line 38). -/
def encSamplesPerBit (sample_rate : ℕ) (bit_duration : ℚ) : ℤ :=
  truncQ ((sample_rate : ℚ) * bit_duration)

/-- Decoder attribute `self.samples_per_bit = int(sample_rate * bit_duration)` in
`UltrasonicDecoder.__init__` (ultrasonic_decoder.py line 38). -/
def decSamplesPerBit (sample_rate : ℕ) (bit_duration : ℚ) : ℤ :=
  truncQ ((sample_rate : ℚ) * bit_duration)

/-- The big-endian `w`-bit binary expansion of `v`, most significant bit
first; digit `k` (from the least significant end) of `v` in base 2 is
`v / 2 ^ k % 2`.  This is Python `format(v, '0{w}b')` when `v < 2 ^ w`. -/
def bitsBE : ℕ → ℕ → List Bool
  | 0, _ => []
  | w + 1, v => decide (v / 2 ^ w % 2 = 1) :: bitsBE w v

/-- Number of binary digits of `v` (0 for 0), by fuelled structural recursion
so that it reduces in the kernel; the fuel `v` itself always suffices since
`v / 2 < v` for `v ≥ 1`. -/
def bitLenAux : ℕ → ℕ → ℕ
  | 0, _ => 0
  | fuel + 1, v => if v = 0 then 0 else bitLenAux fuel (v / 2) + 1

/-- Number of binary digits of `v`: the length of Python `format(v, 'b')`
for `v > 0`. -/
def bitLen (v : ℕ) : ℕ := bitLenAux v v

/-- Python `format(v, '0{w}b')`: the binary expansion of `v`, zero-padded on
the left to at least `w` digits.  For `v` needing more than `w` binary digits
Python emits the full `bitLen v`-digit expansion with no truncation. -/
def pyFormatB (w v : ℕ) : List Bool := bitsBE (max w (bitLen v)) v

/-- Source `UltrasonicEncoder._payload_to_bits` applied to one byte:
`format(byte, '08b')` (ultrasonic_encoder.py line 76). -/
def byteToBits (b : ℕ) : List Bool := pyFormatB 8 b

/-- Source `UltrasonicEncoder._payload_to_bits` (ultrasonic_encoder.py lines 72-77):
concatenate the 8-bit MSB-first expansions of the payload bytes. -/
def payload_to_bits (payload : List ℕ) : List Bool := payload.flatMap byteToBits

/-- The fixed 24-bit synchronization pattern `"10101010" + "11110000" +
"10101010"` (`_generate_preamble`, ultrasonic_encoder.py lines 79-82, and
`_detect_preamble`, ultrasonic_decoder.py line 121). -/
def preamble_bits : List Bool :=
  [true, false, true, false, true, false, true, false,
   true, true, true, true, false, false, false, false,
   true, false, true, false, true, false, true, false]

/-- Source `UltrasonicEncoder._add_error_correction` (ultrasonic_encoder.py lines
84-95): prepend the 16-bit big-endian bit-length of the payload bit string,
then repeat every bit three times. -/
def add_error_correction (bits : List Bool) : List Bool :=
  let length_bits := pyFormatB 16 bits.length
  (length_bits ++ bits).flatMap (fun b => [b, b, b])

/-- Python `int(s, 2)` on a bit string: big-endian binary value. -/
def bitsToNat (bits : List Bool) : ℕ :=
  bits.foldl (fun acc b => 2 * acc + b.toNat) 0

/-- The byte-packing loop shared by `_decode_with_advanced_error_correction`
(ultrasonic_decoder.py lines 454-458) and `_decode_bits_to_bytes` (lines
640-644): walk the bit string in 8-bit chunks, keeping only complete chunks,
each converted by `int(chunk, 2)`. -/
def bitsToBytes : List Bool → List ℕ
  | b1 :: b2 :: b3 :: b4 :: b5 :: b6 :: b7 :: b8 :: rest =>
      bitsToNat [b1, b2, b3, b4, b5, b6, b7, b8] :: bitsToBytes rest
  | _ => []

/-- The majority-voting loop shared by `_decode_with_advanced_error_correction`
(ultrasonic_decoder.py lines 418-433) and `_decode_bits_to_bytes` (lines
622-637): walk the bit string in steps of 3; for each complete triple emit
`'1'` iff the `'1'`-votes outnumber the `'0'`-votes; stop at an incomplete
triple. -/
def majorityVote : List Bool → List Bool
  | b1 :: b2 :: b3 :: rest =>
      (if [b1, b2, b3].count false < [b1, b2, b3].count true then true else false)
        :: majorityVote rest
  | _ => []

/-- Source `UltrasonicDecoder._decode_with_advanced_error_correction`
(ultrasonic_decoder.py lines 401-463).  The `try`/`except ValueError` around
`int(length_bits, 2)` is not represented: the bit characters are always
`'0'`/`'1'`, so that parse cannot raise. -/
def decode_with_advanced_error_correction (bit_data : List (Bool × ℚ)) :
    Option (List ℕ) :=
  if bit_data.length < 48 then none
  else
    let bit_string := bit_data.map Prod.fst
    let decoded_bits := majorityVote bit_string
    if decoded_bits.length < 16 then none
    else
      let length_bits := decoded_bits.take 16
      let payload_bits := decoded_bits.drop 16
      let expected_length := bitsToNat length_bits
      if expected_length = 0 ∨ payload_bits.length < expected_length then none
      else
        let actual_payload_bits := payload_bits.take expected_length
        let byte_data := bitsToBytes actual_payload_bits
        if byte_data = [] then none else some byte_data

/-- Source `UltrasonicDecoder._decode_bits_to_bytes` (ultrasonic_decoder.py lines
601-646), the legacy fallback: below 24 bits, pack the raw bits directly;
otherwise majority-vote the triples and pack the result.  No length-prefix
validation is performed on either path. -/
def decode_bits_to_bytes (bit_string : List Bool) : Option (List ℕ) :=
  if bit_string.length < 24 then
    let byte_data := bitsToBytes bit_string
    if byte_data = [] then none else some byte_data
  else
    let decoded_bits := majorityVote bit_string
    let byte_data := bitsToBytes decoded_bits
    if byte_data = [] then none else some byte_data

/-- The candidate-consuming tail of `UltrasonicDecoder.decode_payload`
(ultrasonic_decoder.py lines 91-99): try the advanced decoder, and on failure
fall back to `_decode_bits_to_bytes` on the raw bit string. -/
def decode_candidates (bit_data : List (Bool × ℚ)) : Option (List ℕ) :=
  match decode_with_advanced_error_correction bit_data with
  | some payload_bytes => some payload_bytes
  | none => decode_bits_to_bytes (bit_data.map Prod.fst)

/-- The attribute record an `UltrasonicEncoder` instance holds after
`__init__` (ultrasonic_encoder.py lines 31-38). -/
structure Enc where
  freq_0 : ℚ
  freq_1 : ℚ
  sample_rate : ℕ
  bit_duration : ℚ
  amplitude : ℚ
  samples_per_bit : ℤ

/-- Source `UltrasonicEncoder.__init__` (ultrasonic_encoder.py lines 15-43): store
the configuration, compute `samples_per_bit`, then validate only the two
frequencies against Nyquist (`freq >= nyquist` raises `ValueError`, modelled
as `none`).  The amplitude argument is stored without any validation. -/
def encoderInit (freq_0 freq_1 : ℚ) (sample_rate : ℕ)
    (bit_duration amplitude : ℚ) : Option Enc :=
  let spb := encSamplesPerBit sample_rate bit_duration
  let nyquist := (sample_rate : ℚ) / 2
  if nyquist ≤ freq_0 ∨ nyquist ≤ freq_1 then none
  else some ⟨freq_0, freq_1, sample_rate, bit_duration, amplitude, spb⟩

/-- Source `UltrasonicEncoder.set_amplitude` (ultrasonic_encoder.py lines 320-330):
raises (`none`) unless `0.0 <= amplitude <= 1.0`. -/
def set_amplitude (e : Enc) (amplitude : ℚ) : Option Enc :=
  if ¬(0 ≤ amplitude ∧ amplitude ≤ 1) then none
  else some { e with amplitude := amplitude }

/-- Source `UltrasonicEncoder.set_frequencies` (ultrasonic_encoder.py lines
305-318): raises (`none`) when either frequency reaches Nyquist. -/
def enc_set_frequencies (e : Enc) (freq_0 freq_1 : ℚ) : Option Enc :=
  let nyquist := (e.sample_rate : ℚ) / 2
  if nyquist ≤ freq_0 ∨ nyquist ≤ freq_1 then none
  else some { e with freq_0 := freq_0, freq_1 := freq_1 }

/-- Numpy `np.linspace(a, b, n)` with the default inclusive endpoint
(`_apply_windowing`, ultrasonic_encoder.py lines 239-240). -/
def linspaceQ (a b : ℚ) (n : ℕ) : List ℚ :=
  if n = 1 then [a] else List.ofFn (n := n) fun i => a + (b - a) * i / ((n : ℚ) - 1)

/-- Source `UltrasonicEncoder._apply_windowing` (ultrasonic_encoder.py lines
232-246): multiply the first `max 1 (len/100)` samples by a `0.9 → 1` ramp
and the last that many samples by a `1 → 0.9` ramp. -/
def apply_windowing (tone : List ℚ) : List ℚ :=
  let window_size := max 1 (tone.length / 100)
  let fade_in := linspaceQ (9/10) 1 window_size
  let fade_out := linspaceQ 1 (9/10) window_size
  let t1 := List.zipWith (fun x m => x * m) (tone.take window_size) fade_in
    ++ tone.drop window_size
  t1.take (t1.length - window_size)
    ++ List.zipWith (fun x m => x * m) (t1.drop (t1.length - window_size)) fade_out

/-- Source `UltrasonicEncoder._modulate_fsk` (ultrasonic_encoder.py lines 198-230):
for each bit, synthesize `samples_per_bit` samples of
`amplitude * sin(2π f t)` with `t = i * bit_duration / samples_per_bit`
(`np.linspace` with `endpoint=False`), apply the edge window, and write the
segments back to back.  `sinA` and `piA` are the abstract stand-ins for
`np.sin` and `np.pi`. -/
def modulate_fsk (sinA : ℚ → ℚ) (piA : ℚ) (e : Enc) (bits : List Bool) :
    List ℚ :=
  let spb := e.samples_per_bit.toNat
  (bits.map fun b =>
    let freq := if b then e.freq_1 else e.freq_0
    apply_windowing (List.ofFn (n := spb) fun i =>
      e.amplitude * sinA (2 * piA * freq * ((i : ℚ) * e.bit_duration / (spb : ℚ))))).flatten

/-- Source `UltrasonicEncoder.encode_payload` (ultrasonic_encoder.py lines 45-70):
payload bytes → bit string → length prefix + 3× repetition → optional
preamble → FSK signal. -/
def encode_payload (sinA : ℚ → ℚ) (piA : ℚ) (e : Enc) (payload : List ℕ)
    (add_preamble : Bool) : List ℚ :=
  let bit_string := payload_to_bits payload
  let bit_string2 := add_error_correction bit_string
  let bits := if add_preamble then preamble_bits ++ bit_string2 else bit_string2
  modulate_fsk sinA piA e bits

/-- The attribute record an `UltrasonicDecoder` instance holds after
`__init__` (ultrasonic_decoder.py lines 31-38); the filter coefficients
computed by `_design_filters` live inside `scipy` and are not represented. -/
structure Dec where
  freq_0 : ℚ
  freq_1 : ℚ
  sample_rate : ℕ
  bit_duration : ℚ
  detection_threshold : ℚ
  samples_per_bit : ℤ

/-- The scan loop of `UltrasonicDecoder._detect_preamble`
(ultrasonic_decoder.py lines 144-152): walk positions `0, step, 2·step, …`
(`fuel` of them) and return the first whose correlation exceeds the
threshold.  `corr pos` abstracts `_correlate_with_pattern(signal[pos:pos +
pattern_length], freq_sequence)`, a floating-point dot product against
reference sines. -/
def scan_loop (corr : ℕ → ℚ) (threshold : ℚ) (step : ℕ) :
    ℕ → ℕ → Option ℕ
  | 0, _ => none
  | fuel + 1, pos =>
      if threshold < corr pos then some pos
      else scan_loop corr threshold step fuel (pos + step)

/-- Source `UltrasonicDecoder._detect_preamble` (ultrasonic_decoder.py lines
110-152): give up if the signal is shorter than the 24-bit pattern; otherwise
scan with stride `max 1 (samples_per_bit / 8)` over start positions
`range(0, len - pattern_length + 1, step)` and return the first position
whose correlation exceeds `detection_threshold`, plus `pattern_length`. -/
def detect_preamble (corr : ℕ → ℚ) (threshold : ℚ) (spb sigLen : ℕ) :
    Option ℕ :=
  let pattern_length := 24 * spb
  if sigLen < pattern_length then none
  else
    let step := max 1 (spb / 8)
    let max_start_pos := max 1 (sigLen - pattern_length + 1)
    let iters := (max_start_pos + step - 1) / step
    (scan_loop corr threshold step iters 0).map (fun pos => pos + pattern_length)

/-- The window loop of `UltrasonicDecoder._extract_bits_with_confidence`
(ultrasonic_decoder.py lines 359-397).  `pow0 k`/`pow1 k` abstract the dot
products `|segment·ref_0|`/`|segment·ref_1|` of window `k` (floating-point
sines); the bit decision, the confidence formula, the 5-consecutive-low-power
stop (the breaking window is not appended) and the `len > 10000` cap (checked
after appending) are translated exactly; `0.2` is the rational 1/5. -/
def extract_loop (pow0 pow1 : ℕ → ℚ) (threshold : ℚ) :
    ℕ → ℕ → ℕ → List (Bool × ℚ) → List (Bool × ℚ)
  | 0, _, _, acc => acc
  | fuel + 1, k, consecutive_low_power, acc =>
      let power_0 := pow0 k
      let power_1 := pow1 k
      let total_power := power_0 + power_1
      let confidence : ℚ :=
        if 0 < total_power then
          min 1 (|power_0 - power_1| / total_power) * min 1 (total_power / threshold)
        else 0
      let bit : Bool := if power_1 < power_0 then false else true
      if total_power < threshold * (1/5) then
        if 5 ≤ consecutive_low_power + 1 then acc
        else
          let acc2 := acc ++ [(bit, confidence)]
          if 10000 < acc2.length then acc2
          else extract_loop pow0 pow1 threshold fuel (k + 1) (consecutive_low_power + 1) acc2
      else
        let acc2 := acc ++ [(bit, confidence)]
        if 10000 < acc2.length then acc2
        else extract_loop pow0 pow1 threshold fuel (k + 1) 0 acc2

/-- Number of iterations the `while position + samples_per_bit <= len(signal)`
loop of `_extract_bits_with_confidence` can reach.  For `samples_per_bit = 0`
the position never advances and the loop is bounded only by its internal
breaks, which fire within at most 10002 iterations; 10006 units of fuel are
therefore enough to simulate it exactly. -/
def num_windows (spb sigLen start : ℕ) : ℕ :=
  if spb = 0 then 10006 else (sigLen - start) / spb

/-- Source `UltrasonicDecoder._extract_bits_with_confidence` (ultrasonic_decoder.py
lines 341-399): run the window loop from the synchronized start and return
`None` for an empty candidate list. -/
def extract_bits_with_confidence (pow0 pow1 : ℕ → ℚ) (threshold : ℚ)
    (spb sigLen start : ℕ) : Option (List (Bool × ℚ)) :=
  let bit_data := extract_loop pow0 pow1 threshold (num_windows spb sigLen start) 0 0 []
  if bit_data = [] then none else some bit_data

/-- Source `UltrasonicDecoder._apply_bandpass_filter` (ultrasonic_decoder.py lines
101-108): apply the (abstract, fallible) `scipy` filter and fall back to the
unfiltered signal when it raises. -/
def apply_bandpass_filter (filt : List ℚ → Except Unit (List ℚ))
    (audio_signal : List ℚ) : List ℚ :=
  match filt audio_signal with
  | .ok filtered => filtered
  | .error _ => audio_signal

/-- The stages of `UltrasonicDecoder.decode_payload` after the band-pass
pre-filter (ultrasonic_decoder.py lines 81-99).  `corrOf sig` and
`pow0Of/pow1Of sig start` are the abstract per-window analog measurements on
the (filtered) signal `sig`. -/
def decode_from_filtered (d : Dec) (corrOf : List ℚ → ℕ → ℚ)
    (pow0Of pow1Of : List ℚ → ℕ → ℕ → ℚ) (sig : List ℚ) : Option (List ℕ) :=
  match detect_preamble (corrOf sig) d.detection_threshold
      d.samples_per_bit.toNat sig.length with
  | none => none
  | some start_position =>
      match extract_bits_with_confidence (pow0Of sig start_position)
          (pow1Of sig start_position) d.detection_threshold
          d.samples_per_bit.toNat sig.length start_position with
      | none => none
      | some bit_data => decode_candidates bit_data

/-- Source `UltrasonicDecoder.decode_payload` (ultrasonic_decoder.py lines 68-99):
band-pass pre-filter (with catch-all fallback), preamble sync, bit
extraction, then frame decode with legacy fallback.  Every failure is the
absent result `none`; the only modelled `raise` site, the `scipy` filter, is
caught inside `apply_bandpass_filter`. -/
def decode_payload (d : Dec) (filt : List ℚ → Except Unit (List ℚ))
    (corrOf : List ℚ → ℕ → ℚ) (pow0Of pow1Of : List ℚ → ℕ → ℕ → ℚ)
    (audio_signal : List ℚ) : Option (List ℕ) :=
  decode_from_filtered d corrOf pow0Of pow1Of
    (apply_bandpass_filter filt audio_signal)

/-- The default encoder configuration (ultrasonic_encoder.py lines 15-20):
`freq_0=18500, freq_1=19500, sample_rate=48000, bit_duration=0.01,
amplitude=0.1`, hence `samples_per_bit = int(48000 * 0.01) = 480`. -/
def defaultEnc : Enc :=
  ⟨18500, 19500, 48000, 1/100, 1/10, encSamplesPerBit 48000 (1/100)⟩

/-- The default decoder configuration (ultrasonic_decoder.py lines 15-20):
`detection_threshold = 0.01`. -/
def defaultDec : Dec :=
  ⟨18500, 19500, 48000, 1/100, 1/100, decSamplesPerBit 48000 (1/100)⟩

/-- Big-endian value of a bit list, written through `Nat.ofDigits` on the
reversed digit list; used by the spec-side frame decoder. -/
def beVal (l : List Bool) : ℕ := Nat.ofDigits 2 ((l.map Bool.toNat).reverse)

/-- Modelled from the spec, §4.1 `decode_frame(candidates)`, for comparison
with `decode_with_advanced_error_correction`: fail below 48 candidates; apply
a per-3-bit majority vote (at least 2 of 3 `'1'`-votes) over chunks taken off
a range; read the first 16 decoded bits as a big-endian length; fail if the
length is 0 or exceeds the remaining decoded bits; take exactly `length`
bits, group them into the `length / 8` complete MSB-first bytes, and fail if
no complete byte results. -/
def decode_frame_spec (candidates : List (Bool × ℚ)) : Option (List ℕ) :=
  if candidates.length < 48 then none
  else
    let raw := candidates.map Prod.fst
    let decoded := (List.range (raw.length / 3)).map
      (fun i => decide (2 ≤ ((raw.drop (3 * i)).take 3).count true))
    let len := beVal (decoded.take 16)
    if len = 0 ∨ decoded.length - 16 < len then none
    else
      let actual := (decoded.drop 16).take len
      let bytes := (List.range (len / 8)).map
        (fun j => beVal ((actual.drop (8 * j)).take 8))
      if bytes = [] then none else some bytes

/-! ## Bit-level arithmetic helpers -/

theorem bitsBE_length : ∀ w v, (bitsBE w v).length = w
  | 0, _ => rfl
  | w + 1, v => by simp [bitsBE, bitsBE_length w v]

theorem mod_two_pow_succ (v w : ℕ) :
    v % 2 ^ (w + 1) = v / 2 ^ w % 2 * 2 ^ w + v % 2 ^ w := by
  have h0 : (2 : ℕ) ^ (w + 1) = 2 ^ w * 2 := by rw [pow_succ]
  have h1 : v % (2 ^ w * 2) / 2 ^ w = v / 2 ^ w % 2 :=
    Nat.mod_mul_right_div_self v (2 ^ w) 2
  have h2 : v % (2 ^ w * 2) % 2 ^ w = v % 2 ^ w :=
    Nat.mod_mod_of_dvd v ⟨2, rfl⟩
  have h3 := Nat.div_add_mod (v % (2 ^ w * 2)) (2 ^ w)
  rw [h1, h2] at h3
  rw [h0, ← h3]
  ring

theorem bitsToNat_foldl (l : List Bool) : ∀ a : ℕ,
    List.foldl (fun acc b => 2 * acc + b.toNat) a l = a * 2 ^ l.length + bitsToNat l := by
  induction l with
  | nil => intro a; simp [bitsToNat]
  | cons b l ih =>
      intro a
      have hb : bitsToNat (b :: l) = b.toNat * 2 ^ l.length + bitsToNat l := by
        show List.foldl _ (2 * 0 + b.toNat) l = _
        rw [ih]
        simp
      simp only [List.foldl_cons, List.length_cons]
      rw [ih, hb]
      ring

theorem bitsToNat_cons (b : Bool) (l : List Bool) :
    bitsToNat (b :: l) = b.toNat * 2 ^ l.length + bitsToNat l := by
  show List.foldl _ (2 * 0 + b.toNat) l = _
  rw [bitsToNat_foldl]
  simp

theorem bitsToNat_bitsBE (w v : ℕ) : bitsToNat (bitsBE w v) = v % 2 ^ w := by
  induction w with
  | zero => simp [bitsBE, bitsToNat, Nat.mod_one]
  | succ w ih =>
      have step : bitsToNat (bitsBE (w + 1) v) =
          (decide (v / 2 ^ w % 2 = 1)).toNat * 2 ^ w + bitsToNat (bitsBE w v) := by
        rw [show bitsBE (w + 1) v = decide (v / 2 ^ w % 2 = 1) :: bitsBE w v from rfl,
          bitsToNat_cons, bitsBE_length]
      rw [step, ih, mod_two_pow_succ]
      rcases Nat.mod_two_eq_zero_or_one (v / 2 ^ w) with h | h <;> simp [h]

theorem bitLenAux_le_iff : ∀ fuel v w, v ≤ fuel → (bitLenAux fuel v ≤ w ↔ v < 2 ^ w) := by
  intro fuel
  induction fuel with
  | zero =>
      intro v w hv
      have : v = 0 := Nat.le_zero.mp hv
      subst this
      simp [bitLenAux, Nat.pos_pow_of_pos]
  | succ fuel ih =>
      intro v w hv
      by_cases h0 : v = 0
      · subst h0; simp [bitLenAux, Nat.pos_pow_of_pos]
      · have hrec : bitLenAux (fuel + 1) v = bitLenAux fuel (v / 2) + 1 := by
          simp [bitLenAux, h0]
        rw [hrec]
        cases w with
        | zero =>
            simp only [Nat.add_one_le_iff]
            constructor
            · intro h; omega
            · intro h; omega
        | succ w =>
            have hdiv : v / 2 ≤ fuel := by omega
            rw [Nat.add_le_add_iff_right, ih (v / 2) w hdiv, pow_succ]
            exact Nat.div_lt_iff_lt_mul (by norm_num)

theorem bitLen_le_iff (v w : ℕ) : bitLen v ≤ w ↔ v < 2 ^ w :=
  bitLenAux_le_iff v v w le_rfl

theorem pyFormatB_eq_of_lt {w v : ℕ} (h : v < 2 ^ w) : pyFormatB w v = bitsBE w v := by
  unfold pyFormatB
  rw [Nat.max_eq_left ((bitLen_le_iff v w).mpr h)]

theorem length_pyFormatB (w v : ℕ) : (pyFormatB w v).length = max w (bitLen v) := by
  unfold pyFormatB
  rw [bitsBE_length]

theorem bitsToNat_pyFormatB {w v : ℕ} (h : v < 2 ^ w) : bitsToNat (pyFormatB w v) = v := by
  rw [pyFormatB_eq_of_lt h, bitsToNat_bitsBE]
  exact Nat.mod_eq_of_lt h

/-! ## Frame-codec structure helpers -/

theorem length_majorityVote : ∀ l : List Bool, (majorityVote l).length = l.length / 3
  | _ :: _ :: _ :: rest => by
      simp only [majorityVote, List.length_cons, length_majorityVote rest]
      omega
  | [] => rfl
  | [_] => by simp [majorityVote]
  | [_, _] => by simp [majorityVote]

theorem majorityVote_triple : ∀ l : List Bool,
    majorityVote (l.flatMap fun b => [b, b, b]) = l
  | [] => rfl
  | b :: rest => by
      rw [show (b :: rest).flatMap (fun b => [b, b, b])
            = b :: b :: b :: rest.flatMap (fun b => [b, b, b]) from rfl,
        show majorityVote (b :: b :: b :: rest.flatMap (fun b => [b, b, b]))
            = (if [b, b, b].count false < [b, b, b].count true then true else false)
              :: majorityVote (rest.flatMap (fun b => [b, b, b])) from rfl,
        majorityVote_triple rest]
      cases b <;> simp

theorem length_flatMap_triple (l : List Bool) :
    (l.flatMap fun b => [b, b, b]).length = 3 * l.length := by
  induction l with
  | nil => rfl
  | cons b rest ih =>
      simp only [List.flatMap_cons, List.length_append, List.length_cons, ih]
      simp
      omega

theorem majorityVote_eq_chunks : ∀ l : List Bool,
    majorityVote l = (List.range (l.length / 3)).map
      (fun i => decide (2 ≤ ((l.drop (3 * i)).take 3).count true))
  | b1 :: b2 :: b3 :: rest => by
      have hlen : (b1 :: b2 :: b3 :: rest).length / 3 = rest.length / 3 + 1 := by
        simp only [List.length_cons]; omega
      have hrec : majorityVote (b1 :: b2 :: b3 :: rest)
          = (if [b1, b2, b3].count false < [b1, b2, b3].count true then true else false)
            :: majorityVote rest := rfl
      rw [hrec, hlen, List.range_succ_eq_map, List.map_cons, List.map_map]
      congr 1
      · cases b1 <;> cases b2 <;> cases b3 <;> simp [List.count_cons]
      · rw [majorityVote_eq_chunks rest]
        apply List.map_congr_left
        intro j _
        have h3 : (b1 :: b2 :: b3 :: rest).drop (3 * (j + 1)) = rest.drop (3 * j) := by
          rw [show 3 * (j + 1) = 3 * j + 3 by ring]
          rfl
        show decide (2 ≤ ((rest.drop (3 * j)).take 3).count true)
            = decide (2 ≤ (((b1 :: b2 :: b3 :: rest).drop (3 * (j + 1))).take 3).count true)
        rw [h3]
  | [] => rfl
  | [_] => by simp [majorityVote]
  | [_, _] => by simp [majorityVote]

theorem bitsToBytes_eq_chunks : ∀ l : List Bool,
    bitsToBytes l = (List.range (l.length / 8)).map
      (fun j => bitsToNat ((l.drop (8 * j)).take 8))
  | b1 :: b2 :: b3 :: b4 :: b5 :: b6 :: b7 :: b8 :: rest => by
      have hlen : (b1 :: b2 :: b3 :: b4 :: b5 :: b6 :: b7 :: b8 :: rest).length / 8
          = rest.length / 8 + 1 := by
        simp only [List.length_cons]; omega
      have hrec : bitsToBytes (b1 :: b2 :: b3 :: b4 :: b5 :: b6 :: b7 :: b8 :: rest)
          = bitsToNat [b1, b2, b3, b4, b5, b6, b7, b8] :: bitsToBytes rest := rfl
      rw [hrec, hlen, List.range_succ_eq_map, List.map_cons, List.map_map]
      congr 1
      · rw [bitsToBytes_eq_chunks rest]
        apply List.map_congr_left
        intro j _
        have h8 : (b1 :: b2 :: b3 :: b4 :: b5 :: b6 :: b7 :: b8 :: rest).drop (8 * (j + 1))
            = rest.drop (8 * j) := by
          rw [show 8 * (j + 1) = 8 * j + 8 by ring]
          rfl
        show bitsToNat ((rest.drop (8 * j)).take 8)
            = bitsToNat (((b1 :: b2 :: b3 :: b4 :: b5 :: b6 :: b7 :: b8 :: rest).drop
                (8 * (j + 1))).take 8)
        rw [h8]
  | [] => rfl
  | [_] => by simp [bitsToBytes]
  | [_, _] => by simp [bitsToBytes]
  | [_, _, _] => by simp [bitsToBytes]
  | [_, _, _, _] => by simp [bitsToBytes]
  | [_, _, _, _, _] => by simp [bitsToBytes]
  | [_, _, _, _, _, _] => by simp [bitsToBytes]
  | [_, _, _, _, _, _, _] => by simp [bitsToBytes]

theorem bitsToNat_eq_beVal (l : List Bool) : bitsToNat l = beVal l := by
  induction l using List.reverseRecOn with
  | nil => rfl
  | append_singleton l b ih =>
      have h1 : bitsToNat (l ++ [b]) = 2 * bitsToNat l + b.toNat := by
        simp [bitsToNat, List.foldl_append]
      have h2 : beVal (l ++ [b]) = b.toNat + 2 * beVal l := by
        simp [beVal, List.reverse_append, Nat.ofDigits_cons]
      rw [h1, h2, ih]
      omega

/-! ## The decoders never produce an empty byte string -/

theorem advanced_ne_some_nil (bit_data : List (Bool × ℚ)) :
    decode_with_advanced_error_correction bit_data ≠ some [] := by
  unfold decode_with_advanced_error_correction
  dsimp only
  split
  · simp
  · split
    · simp
    · split
      · simp
      · split
        · simp
        · rename_i hne
          simpa using hne

theorem legacy_ne_some_nil (bit_string : List Bool) :
    decode_bits_to_bytes bit_string ≠ some [] := by
  unfold decode_bits_to_bytes
  dsimp only
  split
  · split
    · simp
    · rename_i hne
      simpa using hne
  · split
    · simp
    · rename_i hne
      simpa using hne

theorem decode_candidates_ne_some_nil (bit_data : List (Bool × ℚ)) :
    decode_candidates bit_data ≠ some [] := by
  unfold decode_candidates
  cases h : decode_with_advanced_error_correction bit_data with
  | none => exact legacy_ne_some_nil _
  | some payload =>
      intro hc
      exact advanced_ne_some_nil bit_data (h.trans hc)

theorem decode_payload_ne_some_nil (d : Dec) (filt : List ℚ → Except Unit (List ℚ))
    (corrOf : List ℚ → ℕ → ℚ) (pow0Of pow1Of : List ℚ → ℕ → ℕ → ℚ)
    (audio_signal : List ℚ) :
    decode_payload d filt corrOf pow0Of pow1Of audio_signal ≠ some [] := by
  unfold decode_payload decode_from_filtered
  cases detect_preamble (corrOf (apply_bandpass_filter filt audio_signal))
      d.detection_threshold d.samples_per_bit.toNat
      (apply_bandpass_filter filt audio_signal).length with
  | none => simp
  | some start =>
      dsimp only
      cases extract_bits_with_confidence
          (pow0Of (apply_bandpass_filter filt audio_signal) start)
          (pow1Of (apply_bandpass_filter filt audio_signal) start)
          d.detection_threshold d.samples_per_bit.toNat
          (apply_bandpass_filter filt audio_signal).length start with
      | none => simp
      | some bit_data => exact decode_candidates_ne_some_nil bit_data

/-! ## Byte/bit round-trip helpers -/

theorem byteToBits_eq {b : ℕ} (hb : b < 256) : byteToBits b = bitsBE 8 b :=
  pyFormatB_eq_of_lt (by norm_num; omega)

theorem length_byteToBits {b : ℕ} (hb : b < 256) : (byteToBits b).length = 8 := by
  rw [byteToBits_eq hb, bitsBE_length]

theorem bitsToNat_byteToBits {b : ℕ} (hb : b < 256) : bitsToNat (byteToBits b) = b := by
  rw [byteToBits_eq hb, bitsToNat_bitsBE]
  omega

theorem bitsToBytes_append8 (l rest : List Bool) (h : l.length = 8) :
    bitsToBytes (l ++ rest) = bitsToNat l :: bitsToBytes rest := by
  rcases l with _ | ⟨a1, _ | ⟨a2, _ | ⟨a3, _ | ⟨a4, _ | ⟨a5, _ | ⟨a6, _ | ⟨a7, _ | ⟨a8, _ | ⟨a9, t⟩⟩⟩⟩⟩⟩⟩⟩⟩ <;>
    simp_all [bitsToBytes]

theorem bitsToBytes_payload (p : List ℕ) :
    (∀ b ∈ p, b < 256) → bitsToBytes (payload_to_bits p) = p := by
  induction p with
  | nil => intro _; rfl
  | cons b rest ih =>
      intro hp
      have hb : b < 256 := hp b (by simp)
      show bitsToBytes (byteToBits b ++ rest.flatMap byteToBits) = b :: rest
      rw [bitsToBytes_append8 _ _ (length_byteToBits hb), bitsToNat_byteToBits hb]
      exact congrArg (b :: ·) (ih fun x hx => hp x (by simp [hx]))

theorem length_payload_to_bits (p : List ℕ) (hp : ∀ b ∈ p, b < 256) :
    (payload_to_bits p).length = 8 * p.length := by
  induction p with
  | nil => rfl
  | cons b rest ih =>
      have hb : b < 256 := hp b (by simp)
      have ih2 : (rest.flatMap byteToBits).length = 8 * rest.length :=
        ih fun x hx => hp x (by simp [hx])
      show (byteToBits b ++ rest.flatMap byteToBits).length = 8 * (rest.length + 1)
      rw [List.length_append, length_byteToBits hb, ih2]
      ring

/-! ## Modulator length helpers -/

theorem length_linspaceQ (a b : ℚ) (n : ℕ) : (linspaceQ a b n).length = n := by
  unfold linspaceQ
  split <;> simp_all

theorem length_apply_windowing (tone : List ℚ) :
    (apply_windowing tone).length = tone.length := by
  unfold apply_windowing
  dsimp only
  simp only [List.length_append, List.length_take, List.length_drop,
    List.length_zipWith, length_linspaceQ]
  omega

theorem sum_map_const_nat {α : Type} (l : List α) (c : ℕ) :
    (l.map fun _ => c).sum = l.length * c := by
  induction l with
  | nil => simp
  | cons a l ih =>
      simp only [List.map_cons, List.sum_cons, List.length_cons, ih]
      ring

theorem length_modulate_fsk (sinA : ℚ → ℚ) (piA : ℚ) (e : Enc) (bits : List Bool) :
    (modulate_fsk sinA piA e bits).length = bits.length * e.samples_per_bit.toNat := by
  unfold modulate_fsk
  dsimp only
  rw [List.length_flatten, List.map_map]
  have hseg : ∀ b : Bool,
      (List.length ∘ fun b =>
        apply_windowing (List.ofFn (n := e.samples_per_bit.toNat) fun i =>
          e.amplitude * sinA (2 * piA * (if b then e.freq_1 else e.freq_0)
            * ((i : ℚ) * e.bit_duration / (e.samples_per_bit.toNat : ℚ))))) b
        = e.samples_per_bit.toNat := by
    intro b
    simp [Function.comp, length_apply_windowing]
  rw [List.map_congr_left fun b _ => hseg b, sum_map_const_nat]

theorem length_add_error_correction (bits : List Bool) :
    (add_error_correction bits).length = 3 * (max 16 (bitLen bits.length) + bits.length) := by
  unfold add_error_correction
  dsimp only
  rw [length_flatMap_triple, List.length_append, length_pyFormatB]

theorem length_encode_payload (sinA : ℚ → ℚ) (piA : ℚ) (e : Enc) (p : List ℕ) :
    (encode_payload sinA piA e p true).length =
      (24 + 3 * (max 16 (bitLen (payload_to_bits p).length) + (payload_to_bits p).length))
        * e.samples_per_bit.toNat := by
  unfold encode_payload
  dsimp only
  rw [if_pos rfl, length_modulate_fsk, List.length_append,
    show preamble_bits.length = 24 from rfl, length_add_error_correction]

/-! ## Extraction-loop helpers -/

theorem extract_loop_length_le (pow0 pow1 : ℕ → ℚ) (threshold : ℚ) :
    ∀ (fuel k c : ℕ) (acc : List (Bool × ℚ)), acc.length ≤ 10000 →
    (extract_loop pow0 pow1 threshold fuel k c acc).length ≤ 10001 := by
  intro fuel
  induction fuel with
  | zero =>
      intro k c acc h
      unfold extract_loop
      omega
  | succ fuel ih =>
      intro k c acc h
      unfold extract_loop
      dsimp only
      simp only [List.length_append, List.length_singleton]
      by_cases hlow : pow0 k + pow1 k < threshold * (1 / 5)
      · rw [if_pos hlow]
        by_cases hstop : 5 ≤ c + 1
        · rw [if_pos hstop]
          omega
        · rw [if_neg hstop]
          by_cases hcap : 10000 < acc.length + 1
          · rw [if_pos hcap]
            simp only [List.length_append, List.length_singleton]
            omega
          · rw [if_neg hcap]
            refine ih _ _ _ ?_
            simp only [List.length_append, List.length_singleton]
            omega
      · rw [if_neg hlow]
        by_cases hcap : 10000 < acc.length + 1
        · rw [if_pos hcap]
          simp only [List.length_append, List.length_singleton]
          omega
        · rw [if_neg hcap]
          refine ih _ _ _ ?_
          simp only [List.length_append, List.length_singleton]
          omega

theorem extract_loop_const_high :
    ∀ (fuel k c : ℕ) (acc : List (Bool × ℚ)), acc.length ≤ 10000 →
    (extract_loop (fun _ => 1) (fun _ => 0) 1 fuel k c acc).length
      = min (acc.length + fuel) 10001 := by
  intro fuel
  induction fuel with
  | zero =>
      intro k c acc h
      unfold extract_loop
      omega
  | succ fuel ih =>
      intro k c acc h
      unfold extract_loop
      dsimp only
      rw [if_neg (show ¬((1 : ℚ) + 0 < 1 * (1 / 5)) by norm_num)]
      simp only [List.length_append, List.length_singleton]
      by_cases hcap : 10000 < acc.length + 1
      · rw [if_pos hcap]
        simp only [List.length_append, List.length_singleton]
        omega
      · rw [if_neg hcap]
        rw [ih _ _ _ (by simp only [List.length_append, List.length_singleton]; omega)]
        simp only [List.length_append, List.length_singleton]
        omega

/-! ## Preamble-scan helpers -/

theorem scan_loop_eq_some (corr : ℕ → ℚ) (threshold : ℚ) (step : ℕ) :
    ∀ (fuel pos r : ℕ), scan_loop corr threshold step fuel pos = some r ↔
      ∃ k, k < fuel ∧ threshold < corr (pos + k * step) ∧
        (∀ j, j < k → ¬ threshold < corr (pos + j * step)) ∧ r = pos + k * step := by
  intro fuel
  induction fuel with
  | zero =>
      intro pos r
      simp [scan_loop]
  | succ fuel ih =>
      intro pos r
      unfold scan_loop
      split
      · rename_i hpos
        simp only [Option.some.injEq]
        constructor
        · intro h
          exact ⟨0, by omega, by simpa using hpos, by intro j hj; omega, by omega⟩
        · rintro ⟨k, hk, hcorr, hmin, hr⟩
          rcases Nat.eq_zero_or_pos k with h0 | h0
          · subst h0; omega
          · exact absurd (by simpa using hpos) (hmin 0 h0)
      · rename_i hpos
        rw [ih (pos + step) r]
        constructor
        · rintro ⟨k, hk, hc, hm, hr⟩
          refine ⟨k + 1, by omega, ?_, ?_, ?_⟩
          · have harith : pos + step + k * step = pos + (k + 1) * step := by ring
            rwa [harith] at hc
          · intro j hj
            cases j with
            | zero => simpa using hpos
            | succ j =>
                have harith : pos + (j + 1) * step = pos + step + j * step := by ring
                rw [harith]
                exact hm j (by omega)
          · rw [hr]; ring
        · rintro ⟨k, hk, hc, hm, hr⟩
          cases k with
          | zero => exact absurd (by simpa using hc) hpos
          | succ k =>
              refine ⟨k, by omega, ?_, ?_, ?_⟩
              · have harith : pos + (k + 1) * step = pos + step + k * step := by ring
                rwa [harith] at hc
              · intro j hj
                have harith : pos + step + j * step = pos + (j + 1) * step := by ring
                rw [harith]
                exact hm (j + 1) (by omega)
              · rw [hr]; ring

/-! ## Claims C2 and C3: length-prefix validation and the legacy fallback -/

/-- C2 (amended): when the majority-voted 16-bit length prefix fails
validation (zero, or exceeding the remaining decoded bits), the advanced
decoder returns nothing — but `decode_payload` does not: it falls back to the
legacy `_decode_bits_to_bytes` decoder, which performs no length validation
and may still return a payload. -/
theorem C2_invalid_length_fallback :
    ∀ bd : List (Bool × ℚ), 48 ≤ bd.length →
    (bitsToNat ((majorityVote (bd.map Prod.fst)).take 16) = 0 ∨
      (majorityVote (bd.map Prod.fst)).length - 16
        < bitsToNat ((majorityVote (bd.map Prod.fst)).take 16)) →
    decode_with_advanced_error_correction bd = none ∧
      decode_candidates bd = decode_bits_to_bytes (bd.map Prod.fst) := by
  intro bd h48 hbad
  have hadv : decode_with_advanced_error_correction bd = none := by
    unfold decode_with_advanced_error_correction
    dsimp only
    rw [if_neg (by omega)]
    by_cases h16 : (majorityVote (bd.map Prod.fst)).length < 16
    · rw [if_pos h16]
    · rw [if_neg h16]
      rw [if_pos ?_]
      rcases hbad with h | h
      · exact Or.inl h
      · refine Or.inr ?_
        rwa [List.length_drop]
  exact ⟨hadv, by unfold decode_candidates; rw [hadv]⟩

/-- C2 (counterexample to the claim as stated): 48 all-`'0'` candidates
majority-vote to a zero length prefix, which fails validation, yet
`decode_payload`'s candidate stage returns the payload `b"\x00\x00"` through
the legacy fallback rather than nothing. -/
theorem C2_counterexample :
    bitsToNat ((majorityVote ((List.replicate 48 ((false : Bool), (1 : ℚ))).map
      Prod.fst)).take 16) = 0 ∧
    decode_candidates (List.replicate 48 ((false : Bool), (1 : ℚ))) = some [0, 0] := by
  constructor <;> decide

/-- C2 (witness): the amended theorem applied to the 48 all-`'0'`
candidates. -/
theorem C2_witness :
    48 ≤ (List.replicate 48 ((false : Bool), (1 : ℚ))).length ∧
    (bitsToNat ((majorityVote ((List.replicate 48 ((false : Bool), (1 : ℚ))).map
        Prod.fst)).take 16) = 0 ∨
      (majorityVote ((List.replicate 48 ((false : Bool), (1 : ℚ))).map Prod.fst)).length - 16
        < bitsToNat ((majorityVote ((List.replicate 48 ((false : Bool), (1 : ℚ))).map
            Prod.fst)).take 16)) ∧
    (decode_with_advanced_error_correction (List.replicate 48 ((false : Bool), (1 : ℚ)))
        = none ∧
      decode_candidates (List.replicate 48 ((false : Bool), (1 : ℚ)))
        = decode_bits_to_bytes ((List.replicate 48 ((false : Bool), (1 : ℚ))).map
            Prod.fst)) :=
  ⟨by decide, by decide,
    C2_invalid_length_fallback _ (by decide) (by decide)⟩

/-- C3 (amended): with fewer than 48 candidates the advanced decoder returns
nothing, but `decode_payload` then hands the raw bits to the legacy decoder,
which can still return a payload; `decode_payload` therefore does not
necessarily return an absent result. -/
theorem C3_short_candidates_fallback :
    ∀ bd : List (Bool × ℚ), bd.length < 48 →
    decode_with_advanced_error_correction bd = none ∧
      decode_candidates bd = decode_bits_to_bytes (bd.map Prod.fst) := by
  intro bd h
  have hadv : decode_with_advanced_error_correction bd = none := by
    unfold decode_with_advanced_error_correction
    rw [if_pos h]
  exact ⟨hadv, by unfold decode_candidates; rw [hadv]⟩

/-- C3 (counterexample to the claim as stated): only 8 candidates — the bits
of the byte `65` — are supplied, yet the candidate stage of `decode_payload`
returns `some [65]` through the legacy fallback instead of nothing. -/
theorem C3_counterexample :
    ((byteToBits 65).map (fun b => (b, (1 : ℚ)))).length = 8 ∧
    decode_candidates ((byteToBits 65).map (fun b => (b, (1 : ℚ)))) = some [65] := by
  constructor <;> decide

/-- C3 (witness): the amended theorem applied to the empty candidate list. -/
theorem C3_witness :
    (([] : List (Bool × ℚ)).length < 48) ∧
    (decode_with_advanced_error_correction ([] : List (Bool × ℚ)) = none ∧
      decode_candidates ([] : List (Bool × ℚ))
        = decode_bits_to_bytes (([] : List (Bool × ℚ)).map Prod.fst)) :=
  ⟨by decide, C3_short_candidates_fallback [] (by decide)⟩

/-! ## Claim C6: configuration-time validation -/

/-- C6 (amended): encoder construction raises exactly when a frequency
reaches Nyquist — the amplitude is not validated there; `set_amplitude`
raises exactly when the amplitude leaves `[0, 1]`; the encoder's
`set_frequencies` raises exactly when a frequency reaches Nyquist. -/
theorem C6_validation_sites :
    (∀ (f0 f1 : ℚ) (sr : ℕ) (bd a : ℚ),
      encoderInit f0 f1 sr bd a = none ↔
        ((sr : ℚ) / 2 ≤ f0 ∨ (sr : ℚ) / 2 ≤ f1)) ∧
    (∀ (e : Enc) (a : ℚ), set_amplitude e a = none ↔ ¬(0 ≤ a ∧ a ≤ 1)) ∧
    (∀ (e : Enc) (f0 f1 : ℚ),
      enc_set_frequencies e f0 f1 = none ↔
        ((e.sample_rate : ℚ) / 2 ≤ f0 ∨ (e.sample_rate : ℚ) / 2 ≤ f1)) := by
  refine ⟨?_, ?_, ?_⟩
  · intro f0 f1 sr bd a
    unfold encoderInit
    dsimp only
    split <;> rename_i h <;> simp [h]
  · intro e a
    unfold set_amplitude
    split <;> rename_i h <;> simp [h]
  · intro e f0 f1
    unfold enc_set_frequencies
    dsimp only
    split <;> rename_i h <;> simp [h]

/-- C6 (counterexample to the claim as stated): constructing an encoder with
amplitude 5 — far outside `[0, 1]` — succeeds; no error is raised at the
moment this configuration is set. -/
theorem C6_counterexample :
    (encoderInit 18500 19500 48000 (1/100) 5).isSome = true ∧
    ¬((0 : ℚ) ≤ 5 ∧ (5 : ℚ) ≤ 1) := by
  constructor
  · unfold encoderInit
    dsimp only
    rw [if_neg (by norm_num)]
    rfl
  · norm_num

/-- C6 (witness): the amended theorem applied to `set_amplitude` with
amplitude 5 on a concrete encoder state. -/
theorem C6_witness :
    set_amplitude ⟨18500, 19500, 48000, 1/100, 1/10, 480⟩ 5 = none :=
  (C6_validation_sites.2.1 ⟨18500, 19500, 48000, 1/100, 1/10, 480⟩ 5).mpr (by norm_num)

/-! ## Claim C7: samples per bit -/

/-- C7 (amended): both `samples_per_bit` attributes are `int(sample_rate ×
bit_duration)`, i.e. the product truncated toward zero — the floor, not the
nearest integer, for nonnegative durations — and the encoder and the decoder
compute the same value. -/
theorem C7_truncation :
    ∀ (sr : ℕ) (bd : ℚ), 0 ≤ bd →
    encSamplesPerBit sr bd = ⌊(sr : ℚ) * bd⌋ ∧
    decSamplesPerBit sr bd = encSamplesPerBit sr bd ∧
    ((encSamplesPerBit sr bd : ℚ) ≤ (sr : ℚ) * bd ∧
      (sr : ℚ) * bd < encSamplesPerBit sr bd + 1) := by
  intro sr bd h
  have hfloor : encSamplesPerBit sr bd = ⌊(sr : ℚ) * bd⌋ := by
    unfold encSamplesPerBit truncQ
    rw [if_pos (mul_nonneg (by positivity) h)]
  refine ⟨hfloor, rfl, ?_, ?_⟩
  · rw [hfloor]
    exact Int.floor_le _
  · rw [hfloor]
    exact Int.lt_floor_add_one _

/-- C7 (counterexample to the claim as stated): at `sample_rate = 1000`,
`bit_duration = 0.00175` the product is 1.75; the code computes 1 samples per
bit (truncation) whereas rounding to the nearest integer gives 2. -/
theorem C7_counterexample :
    encSamplesPerBit 1000 (7/4000) = 1 ∧ round ((1000 : ℚ) * (7/4000)) = 2 := by
  constructor
  · norm_num [encSamplesPerBit, truncQ]
  · norm_num [round_eq]

/-- C7 (witness): the amended theorem at the default configuration. -/
theorem C7_witness :
    0 ≤ (1/100 : ℚ) ∧
    (encSamplesPerBit 48000 (1/100) = ⌊((48000 : ℕ) : ℚ) * (1/100)⌋ ∧
      decSamplesPerBit 48000 (1/100) = encSamplesPerBit 48000 (1/100) ∧
      ((encSamplesPerBit 48000 (1/100) : ℚ) ≤ ((48000 : ℕ) : ℚ) * (1/100) ∧
        ((48000 : ℕ) : ℚ) * (1/100) < encSamplesPerBit 48000 (1/100) + 1)) :=
  ⟨by norm_num, C7_truncation 48000 (1/100) (by norm_num)⟩

/-! ## Claim C8: extraction stop conditions and the candidate cap -/

/-- C8 (amended): bit-candidate collection stops on 5 consecutive low-power
windows (the fifth breaking window is not appended) or once the candidate
count exceeds 10,000 — the cap is checked after appending, so the returned
sequence can hold up to 10,001 entries, and never more than 10,001. -/
theorem C8_candidate_cap :
    ∀ (pow0 pow1 : ℕ → ℚ) (threshold : ℚ) (spb sigLen start : ℕ),
    ((extract_bits_with_confidence pow0 pow1 threshold spb sigLen start).getD []).length
      ≤ 10001 := by
  intro pow0 pow1 threshold spb sigLen start
  unfold extract_bits_with_confidence
  dsimp only
  split
  · simp
  · exact extract_loop_length_le pow0 pow1 threshold _ 0 0 [] (by simp)

/-- C8 (counterexample to the claim as stated): with every window showing
high power (`pow0 = 1, pow1 = 0, threshold = 1`) and 20,000 windows
available, extraction returns 10,001 candidates — more than the claimed
10,000-entry bound. -/
theorem C8_counterexample :
    ∃ r, extract_bits_with_confidence (fun _ => 1) (fun _ => 0) 1 1 20000 0 = some r ∧
      10000 < r.length := by
  have hwin : num_windows 1 20000 0 = 20000 := by norm_num [num_windows]
  have hlen : (extract_loop (fun _ => (1 : ℚ)) (fun _ => (0 : ℚ)) 1
      (num_windows 1 20000 0) 0 0 []).length = 10001 := by
    rw [hwin, extract_loop_const_high 20000 0 0 [] (by simp)]
    simp
  have hne : extract_loop (fun _ => (1 : ℚ)) (fun _ => (0 : ℚ)) 1
      (num_windows 1 20000 0) 0 0 [] ≠ [] := by
    intro h
    rw [h] at hlen
    simp at hlen
  refine ⟨extract_loop (fun _ => (1 : ℚ)) (fun _ => (0 : ℚ)) 1
      (num_windows 1 20000 0) 0 0 [], ?_, ?_⟩
  · unfold extract_bits_with_confidence
    dsimp only
    rw [if_neg hne]
  · rw [hlen]
    norm_num

/-! ## Claim C5: first-match preamble detection -/

theorem grid_index_iff (sigLen pl s k : ℕ) (hs : 1 ≤ s) (hpl : pl ≤ sigLen) :
    k < (max 1 (sigLen - pl + 1) + s - 1) / s ↔ k * s + pl ≤ sigLen := by
  rw [Nat.max_eq_right (by omega), Nat.lt_iff_add_one_le,
    Nat.le_div_iff_mul_le (by omega), Nat.add_mul, one_mul]
  generalize k * s = ks
  omega

/-- C5: the preamble search returns `none` on signals shorter than the 24-bit
pattern, and otherwise returns `some r` exactly when `r` is the first offset
on the scan grid `0, step, 2·step, …` (with `step = max 1 (samples_per_bit /
8)`, grid offsets limited to windows that fit in the signal) whose
correlation exceeds the detection threshold, plus the pattern duration
`24 × samples_per_bit` — a first-match policy, not a best-match one, and
`none` when no grid offset exceeds the threshold. -/
theorem C5_first_match_policy :
    ∀ (corr : ℕ → ℚ) (threshold : ℚ) (spb sigLen : ℕ),
    (sigLen < 24 * spb → detect_preamble corr threshold spb sigLen = none) ∧
    (24 * spb ≤ sigLen → ∀ r,
      detect_preamble corr threshold spb sigLen = some r ↔
      ∃ k, k * max 1 (spb / 8) + 24 * spb ≤ sigLen ∧
        threshold < corr (k * max 1 (spb / 8)) ∧
        (∀ j, j < k → ¬ threshold < corr (j * max 1 (spb / 8))) ∧
        r = k * max 1 (spb / 8) + 24 * spb) := by
  intro corr threshold spb sigLen
  constructor
  · intro h
    unfold detect_preamble
    rw [if_pos h]
  · intro hlen r
    unfold detect_preamble
    rw [if_neg (by omega)]
    dsimp only
    rw [Option.map_eq_some']
    constructor
    · rintro ⟨p, hscan, hr⟩
      rw [scan_loop_eq_some] at hscan
      obtain ⟨k, hk, hc, hm, hp⟩ := hscan
      refine ⟨k, ?_, ?_, ?_, ?_⟩
      · exact (grid_index_iff sigLen (24 * spb) _ k (le_max_left 1 _) hlen).mp hk
      · simpa using hc
      · intro j hj
        have := hm j hj
        simpa using this
      · rw [← hr, hp]
        simp
    · rintro ⟨k, hk, hc, hm, hr⟩
      refine ⟨k * max 1 (spb / 8), ?_, by omega⟩
      rw [scan_loop_eq_some]
      refine ⟨k, ?_, by simpa using hc, ?_, by simp⟩
      · exact (grid_index_iff sigLen (24 * spb) _ k (le_max_left 1 _) hlen).mpr hk
      · intro j hj
        have := hm j hj
        simpa using this

/-- C5 (witness): the characterization applied to a concrete scan in which
the very first window already exceeds the threshold. -/
theorem C5_witness :
    detect_preamble (fun _ => (1 : ℚ)) 0 8 192 = some 192 :=
  ((C5_first_match_policy (fun _ => 1) 0 8 192).2 (by norm_num) 192).mpr
    ⟨0, by norm_num, by norm_num, fun j hj => absurd hj (Nat.not_lt_zero j), by norm_num⟩

/-! ## Claim C4: the frame decoder against the spec wording -/

/-- C4: for every candidate list the frame decoder accepts (at least 48
candidates), `_decode_with_advanced_error_correction` coincides with the
spec-worded `decode_frame`: per-3-bit majority vote, first 16 decoded bits as
big-endian length, failure on zero or oversized length, and otherwise exactly
the first `length` bits grouped MSB-first into the `length / 8` complete
bytes, failing when no complete byte results. -/
theorem C4_frame_decoder_refines_spec :
    ∀ bd : List (Bool × ℚ), 48 ≤ bd.length →
    decode_with_advanced_error_correction bd = decode_frame_spec bd := by
  intro bd h48
  unfold decode_with_advanced_error_correction decode_frame_spec
  dsimp only
  have h48' : ¬ bd.length < 48 := by omega
  rw [if_neg h48', if_neg h48', ← majorityVote_eq_chunks (bd.map Prod.fst)]
  have hlen : ¬ (majorityVote (bd.map Prod.fst)).length < 16 := by
    rw [length_majorityVote, List.length_map]
    omega
  rw [if_neg hlen, bitsToNat_eq_beVal ((majorityVote (bd.map Prod.fst)).take 16),
    List.length_drop]
  by_cases hbad : beVal ((majorityVote (bd.map Prod.fst)).take 16) = 0 ∨
      (majorityVote (bd.map Prod.fst)).length - 16
        < beVal ((majorityVote (bd.map Prod.fst)).take 16)
  · rw [if_pos hbad, if_pos hbad]
  · rw [if_neg hbad, if_neg hbad]
    have hact : (((majorityVote (bd.map Prod.fst)).drop 16).take
        (beVal ((majorityVote (bd.map Prod.fst)).take 16))).length
        = beVal ((majorityVote (bd.map Prod.fst)).take 16) := by
      rw [List.length_take, List.length_drop]
      omega
    rw [bitsToBytes_eq_chunks, hact,
      List.map_congr_left fun j _ => bitsToNat_eq_beVal _]

/-- C4 (witness): the refinement applied to 60 all-`'1'` candidates, where
both sides fail on an oversized length prefix. -/
theorem C4_witness :
    48 ≤ (List.replicate 60 ((true : Bool), (1 : ℚ))).length ∧
    decode_with_advanced_error_correction (List.replicate 60 ((true : Bool), (1 : ℚ)))
      = decode_frame_spec (List.replicate 60 ((true : Bool), (1 : ℚ))) :=
  ⟨by decide, C4_frame_decoder_refines_spec _ (by decide)⟩

/-! ## Claim C1: the round trip -/

theorem map_fst_pairing (l : List Bool) :
    (l.map (fun b => (b, (1 : ℚ)))).map Prod.fst = l := by
  induction l with
  | nil => rfl
  | cons b t ih => simp only [List.map_cons, ih]

theorem frame_roundtrip (p : List ℕ) (hbytes : ∀ b ∈ p, b < 256)
    (hpos : 1 ≤ p.length) (hlen : p.length ≤ 8191) :
    decode_candidates ((add_error_correction (payload_to_bits p)).map
      (fun b => (b, (1 : ℚ)))) = some p := by
  have hblen : (payload_to_bits p).length = 8 * p.length := length_payload_to_bits p hbytes
  have hsmall : (payload_to_bits p).length < 2 ^ 16 := by
    rw [hblen]
    norm_num
    omega
  have hfmtlen : (pyFormatB 16 (payload_to_bits p).length).length = 16 := by
    rw [pyFormatB_eq_of_lt hsmall, bitsBE_length]
  have hmapfst : ((add_error_correction (payload_to_bits p)).map
      (fun b => (b, (1 : ℚ)))).map Prod.fst = add_error_correction (payload_to_bits p) :=
    map_fst_pairing _
  have hbdlen : ((add_error_correction (payload_to_bits p)).map
      (fun b => (b, (1 : ℚ)))).length = 3 * (16 + 8 * p.length) := by
    rw [List.length_map, length_add_error_correction, hblen,
      Nat.max_eq_left ((bitLen_le_iff _ 16).mpr (by rw [← hblen]; exact hsmall))]
  have hvote : majorityVote (add_error_correction (payload_to_bits p))
      = pyFormatB 16 (payload_to_bits p).length ++ payload_to_bits p := by
    unfold add_error_correction
    dsimp only
    exact majorityVote_triple _
  have hadv : decode_with_advanced_error_correction
      ((add_error_correction (payload_to_bits p)).map (fun b => (b, (1 : ℚ))))
        = some p := by
    unfold decode_with_advanced_error_correction
    dsimp only
    rw [if_neg (by rw [hbdlen]; omega), hmapfst, hvote]
    have hdlen : (pyFormatB 16 (payload_to_bits p).length ++ payload_to_bits p).length
        = 16 + 8 * p.length := by
      rw [List.length_append, hfmtlen, hblen]
    rw [if_neg (by rw [hdlen]; omega),
      List.take_left' hfmtlen, List.drop_left' hfmtlen,
      bitsToNat_pyFormatB hsmall,
      if_neg (by rw [hblen]; omega),
      List.take_length, bitsToBytes_payload p hbytes,
      if_neg (by intro h; rw [h] at hpos; simp at hpos)]
  unfold decode_candidates
  rw [hadv]

/-- C1 (amended): under exact recovery of the transmitted frame bits (the
noiseless channel), every payload of 1 to 200 bytes round-trips through the
frame layer of `decode_payload`; the empty payload does not round-trip: its
zero length prefix is rejected by the advanced decoder and the legacy
fallback returns `b"\x00\x00"` — never `Some(b"")`. -/
theorem C1_roundtrip_amended :
    (∀ p : List ℕ, (∀ b ∈ p, b < 256) → 1 ≤ p.length → p.length ≤ 200 →
      decode_candidates ((add_error_correction (payload_to_bits p)).map
        (fun b => (b, (1 : ℚ)))) = some p) ∧
    decode_candidates ((add_error_correction (payload_to_bits [])).map
      (fun b => (b, (1 : ℚ)))) = some [0, 0] :=
  ⟨fun p hb h1 _ => frame_roundtrip p hb h1 (by omega), by decide⟩

/-- C1 (counterexample to the claim as stated): the claim quantified over all
payloads of at most 200 bytes fails at the empty payload — whatever the
analog stages do, `decode_payload` can never return `some []`, because both
frame decoders reject an empty byte string. -/
theorem C1_counterexample :
    ¬ (∀ (filt : List ℚ → Except Unit (List ℚ)) (corrOf : List ℚ → ℕ → ℚ)
        (pow0Of pow1Of : List ℚ → ℕ → ℕ → ℚ) (sinA : ℚ → ℚ) (piA : ℚ)
        (p : List ℕ), (∀ b ∈ p, b < 256) → p.length ≤ 200 →
        decode_payload defaultDec filt corrOf pow0Of pow1Of
          (encode_payload sinA piA defaultEnc p true) = some p) := by
  intro h
  exact decode_payload_ne_some_nil defaultDec (fun s => Except.ok s)
    (fun _ _ => 0) (fun _ _ _ => 0) (fun _ _ _ => 0) _
    (h (fun s => Except.ok s) (fun _ _ => 0) (fun _ _ _ => 0) (fun _ _ _ => 0)
      (fun _ => 0) 0 [] (by simp) (by simp))

/-- C1 (witness): the amended round trip at the payload `b"TEST"`. -/
theorem C1_witness :
    (∀ b ∈ ([84, 69, 83, 84] : List ℕ), b < 256) ∧
    1 ≤ ([84, 69, 83, 84] : List ℕ).length ∧
    ([84, 69, 83, 84] : List ℕ).length ≤ 200 ∧
    decode_candidates ((add_error_correction (payload_to_bits [84, 69, 83, 84])).map
      (fun b => (b, (1 : ℚ)))) = some [84, 69, 83, 84] :=
  ⟨by decide, by decide, by decide,
    C1_roundtrip_amended.1 [84, 69, 83, 84] (by decide) (by decide) (by decide)⟩

/-! ## Claim C9: totality of decode_payload -/

/-- C9: `decode_payload` is a total function of the signal: for every
behaviour of the (fallible) band-pass filter it returns an `Option` value —
the post-filter pipeline applied to the filtered signal when the filter
succeeds, and, when the filter raises, the same pipeline applied to the
unfiltered signal instead of aborting.  All remaining stages are total
functions of the embedding; failure is only ever the absent result. -/
theorem C9_total_with_filter_fallback :
    ∀ (d : Dec) (filt : List ℚ → Except Unit (List ℚ)) (corrOf : List ℚ → ℕ → ℚ)
      (pow0Of pow1Of : List ℚ → ℕ → ℕ → ℚ) (sig : List ℚ),
    (∃ f, filt sig = .ok f ∧
      decode_payload d filt corrOf pow0Of pow1Of sig
        = decode_from_filtered d corrOf pow0Of pow1Of f) ∨
    (∃ e, filt sig = .error e ∧
      decode_payload d filt corrOf pow0Of pow1Of sig
        = decode_from_filtered d corrOf pow0Of pow1Of sig) := by
  intro d filt corrOf pow0Of pow1Of sig
  unfold decode_payload apply_bandpass_filter
  cases h : filt sig with
  | ok f => exact Or.inl ⟨f, rfl, rfl⟩
  | error e => exact Or.inr ⟨e, rfl, rfl⟩

/-! ## Claim C10: encoded signal length -/

/-- C10 (amended): for payloads of at most 8191 bytes (so that the bit count
fits the 16-bit prefix), the encoded signal with preamble has exactly
`(24 + 3 × (16 + 8 × n)) × samples_per_bit` samples. -/
theorem C10_signal_length :
    ∀ (sinA : ℚ → ℚ) (piA : ℚ) (e : Enc) (p : List ℕ),
    (∀ b ∈ p, b < 256) → p.length ≤ 8191 →
    (encode_payload sinA piA e p true).length
      = (24 + 3 * (16 + 8 * p.length)) * e.samples_per_bit.toNat := by
  intro sinA piA e p hb hlen
  rw [length_encode_payload, length_payload_to_bits p hb,
    Nat.max_eq_left ((bitLen_le_iff (8 * p.length) 16).mpr (by norm_num; omega))]

/-- C10 (counterexample to the claim as stated): at 8192 payload bytes the
bit count 65536 no longer fits in 16 bits, Python `format` widens the length
prefix to 17 bits, and the signal length leaves the claimed affine formula. -/
theorem C10_counterexample :
    (encode_payload (fun _ => 0) 0 defaultEnc (List.replicate 8192 0) true).length
      ≠ (24 + 3 * (16 + 8 * (List.replicate 8192 (0 : ℕ)).length))
          * defaultEnc.samples_per_bit.toNat := by
  have hb : ∀ b ∈ List.replicate 8192 (0 : ℕ), b < 256 := by
    intro b hbm
    have := List.eq_of_mem_replicate hbm
    omega
  have hpl : (payload_to_bits (List.replicate 8192 0)).length = 65536 := by
    rw [length_payload_to_bits _ hb, List.length_replicate]
  have hbit : bitLen 65536 = 17 := by
    have h1 : bitLen 65536 ≤ 17 := (bitLen_le_iff 65536 17).mpr (by norm_num)
    have h2 : ¬ bitLen 65536 ≤ 16 := by
      rw [bitLen_le_iff]
      norm_num
    omega
  have hspb : defaultEnc.samples_per_bit.toNat = 480 := by
    norm_num [defaultEnc, encSamplesPerBit, truncQ]
    decide
  rw [length_encode_payload, hpl, hbit, List.length_replicate, hspb]
  norm_num

/-- C10 (witness): the amended length formula at a one-byte payload under the
default configuration. -/
theorem C10_witness :
    (∀ b ∈ ([7] : List ℕ), b < 256) ∧ ([7] : List ℕ).length ≤ 8191 ∧
    (encode_payload (fun _ => 0) 0 defaultEnc [7] true).length
      = (24 + 3 * (16 + 8 * ([7] : List ℕ).length)) * defaultEnc.samples_per_bit.toNat :=
  ⟨by decide, by decide,
    C10_signal_length (fun _ => 0) 0 defaultEnc [7] (by decide) (by decide)⟩
